import Mathlib

/-!
A shallow embedding of the PII-anonymizer core of `teseo-data`
(`scripts/anonymizer/detector.ts`, `scripts/anonymizer/anonymizer.ts`,
`scripts/anonymizer/faker.ts`, `scripts/anonymizer/config.ts`).

Text is modelled as `List Char`.  `String.prototype.substring`,
`Array.prototype.sort` (stable), `Map`, and the regex engine's leftmost,
greedy, backtracking match semantics are modelled explicitly below.  The
random values produced by `@faker-js/faker` are modelled by an oracle
`gen : EntityType → Nat → List Char` consulted at successive positions of a
random stream counter carried in the faker state.
-/

namespace Teseo

/-- JavaScript `\w` (the word characters of `\b`): ASCII letters, digits, `_`. -/
def isWordChar (c : Char) : Bool :=
  ('a' ≤ c && c ≤ 'z') || ('A' ≤ c && c ≤ 'Z') || ('0' ≤ c && c ≤ '9') || c = '_'

/-- JavaScript `\s`: ASCII whitespace plus the Unicode space characters. -/
def isJsWs (c : Char) : Bool :=
  c = ' ' || c = '\t' || c = '\n' || c = '\r' || c = '\x0b' || c = '\x0c' ||
  c = '\u00A0' || c = '\u1680' || ('\u2000' ≤ c && c ≤ '\u200A') ||
  c = '\u2028' || c = '\u2029' || c = '\u202F' || c = '\u205F' ||
  c = '\u3000' || c = '\uFEFF'

/-- The `[0-9]`. -/
def isDigit (c : Char) : Bool := '0' ≤ c && c ≤ '9'

/-- The `[A-Z]` under the `i` flag, i.e. any ASCII letter. -/
def isAsciiLetter (c : Char) : Bool := ('a' ≤ c && c ≤ 'z') || ('A' ≤ c && c ≤ 'Z')

/-- The `[A-Z0-9]` under the `i` flag. -/
def isAlnum (c : Char) : Bool := isAsciiLetter c || isDigit c

/-- The `[A-Z]` (case sensitive, as in the PERSON pattern). -/
def isUpperAZ (c : Char) : Bool := 'A' ≤ c && c ≤ 'Z'

/-- The `[a-zàèéìòù]`, the lower-case letters of the PERSON pattern. -/
def isLowerName (c : Char) : Bool :=
  ('a' ≤ c && c ≤ 'z') || c = 'à' || c = 'è' || c = 'é' || c = 'ì' || c = 'ò' || c = 'ù'

/-- The `[a-zA-Z0-9._%+-]`, the local part of the EMAIL pattern. -/
def isLocalChar (c : Char) : Bool :=
  isAsciiLetter c || isDigit c || c = '.' || c = '_' || c = '%' || c = '+' || c = '-'

/-- The `[a-zA-Z0-9.-]`, the domain part of the EMAIL pattern. -/
def isDomainChar (c : Char) : Bool := isAsciiLetter c || isDigit c || c = '.' || c = '-'

/-- The `[\s.-]`, the separator class of the PHONE pattern. -/
def isPhoneSep (c : Char) : Bool := isJsWs c || c = '.' || c = '-'

/-- The `[\s-]`, the separator class of the CREDIT_CARD pattern. -/
def isCardSep (c : Char) : Bool := isJsWs c || c = '-'

/-- Length of the maximal (greedy) prefix run of characters satisfying `p`. -/
def runLen (p : Char → Bool) : List Char → Nat
  | [] => 0
  | c :: cs => if p c then runLen p cs + 1 else 0

/-- Exactly `k` characters of class `p` at the front. -/
def exactRun (p : Char → Bool) (k : Nat) (cs : List Char) : Bool :=
  k ≤ cs.length && (cs.take k).all p

/-! ### The six matchers of `PATTERNS`

Each matcher receives the text from the attempted match position (and, for
PERSON, the preceding character, needed by `\b`) and returns the length of
the match the engine produces there, if any. -/

/-- Backtracking search (longest first) for the split of the domain run of
`/[a-zA-Z0-9._%+-]+@[a-zA-Z0-9.-]+\.[a-zA-Z]{2,}/`: the candidate length
`d` of the `[a-zA-Z0-9.-]+` part is followed by a literal `.` and a greedy
`[a-zA-Z]{2,}` run. -/
def emailTld (cs : List Char) : Nat → Option Nat
  | 0 => none
  | d + 1 =>
    if cs[d + 1]? = some '.' && 2 ≤ runLen isAsciiLetter (cs.drop (d + 2)) then
      some (d + 1 + 1 + runLen isAsciiLetter (cs.drop (d + 2)))
    else emailTld cs d

/-- The `/[a-zA-Z0-9._%+-]+@[a-zA-Z0-9.-]+\.[a-zA-Z]{2,}/` (the EMAIL_ADDRESS
pattern). -/
def matchEmail (cs : List Char) : Option Nat :=
  let lp := runLen isLocalChar cs
  if lp = 0 then none else
  match cs.drop lp with
  | '@' :: ds =>
    match emailTld ds (runLen isDomainChar ds) with
    | some t => some (lp + 1 + t)
    | none => none
  | _ => none

/-- The `[0-9]{lo,hi}` greedy, with nothing after it inside its alternative. -/
def digitsRange (lo hi : Nat) (cs : List Char) : Option Nat :=
  let r := runLen isDigit cs
  if lo ≤ r then some (min r hi) else none

/-- An optional one-character separator followed by `[0-9]{lo,hi}`; the
engine first tries to consume the separator and backtracks to the empty
alternative if the digits then fail. -/
def optSepDigits (sep : Char → Bool) (lo hi : Nat) (cs : List Char) : Option Nat :=
  match cs with
  | c :: t =>
    if sep c then
      match digitsRange lo hi t with
      | some n => some (1 + n)
      | none => digitsRange lo hi cs
    else digitsRange lo hi cs
  | [] => digitsRange lo hi cs

/-- The `3[0-9]{2}[\s.-]?[0-9]{6,7}`, the first PHONE alternative. -/
def phoneAlt1 (cs : List Char) : Option Nat :=
  match cs with
  | '3' :: rest =>
    if exactRun isDigit 2 rest then
      (optSepDigits isPhoneSep 6 7 (rest.drop 2)).map (fun n => 3 + n)
    else none
  | _ => none

/-- Backtracking over the greedy `[0-9]{1,3}` area-code length of the second
PHONE alternative (`k` counts down from 3). -/
def phoneAlt2Core (rest : List Char) : Nat → Option Nat
  | 0 => none
  | k + 1 =>
    if exactRun isDigit (k + 1) rest then
      match optSepDigits isPhoneSep 6 8 (rest.drop (k + 1)) with
      | some n => some (k + 1 + n)
      | none => phoneAlt2Core rest k
    else phoneAlt2Core rest k

/-- The `0[0-9]{1,3}[\s.-]?[0-9]{6,8}`, the second PHONE alternative. -/
def phoneAlt2 (cs : List Char) : Option Nat :=
  match cs with
  | '0' :: rest => (phoneAlt2Core rest 3).map (fun n => 1 + n)
  | _ => none

/-- The PHONE alternation, first alternative tried first. -/
def phoneCore (cs : List Char) : Option Nat :=
  match phoneAlt1 cs with
  | some n => some n
  | none => phoneAlt2 cs

/-- The `(?:\+39\s?)?` prefix of the PHONE pattern, already past `+39`:
the optional whitespace is consumed greedily with backtracking, then the
alternation follows. -/
def phonePrefixed (rest : List Char) : Option Nat :=
  match rest with
  | c :: t =>
    if isJsWs c then
      match phoneCore t with
      | some n => some (4 + n)
      | none => (phoneCore rest).map (fun n => 3 + n)
    else (phoneCore rest).map (fun n => 3 + n)
  | [] => none

/-- The `/(?:\+39\s?)?(?:3[0-9]{2}[\s.-]?[0-9]{6,7}|0[0-9]{1,3}[\s.-]?[0-9]{6,8})/`
(the PHONE_NUMBER pattern): when the text starts with `+39`, the prefix
(and, inside it, the optional whitespace) is consumed greedily, the engine
backtracking to the prefix-less attempt on failure. -/
def matchPhone (cs : List Char) : Option Nat :=
  match cs with
  | '+' :: '3' :: '9' :: rest =>
    match phonePrefixed rest with
    | some n => some n
    | none => phoneCore cs
  | _ => phoneCore cs

/-- The `/[A-Z]{2}[0-9]{2}[A-Z0-9]{4}[0-9]{7}(?:[A-Z0-9]?){0,16}/gi` (the
IBAN_CODE pattern): a fixed 15-character prefix, then a greedy tail of at
most 16 further alphanumerics. -/
def matchIban (cs : List Char) : Option Nat :=
  if exactRun isAsciiLetter 2 cs
      && exactRun isDigit 2 (cs.drop 2)
      && exactRun isAlnum 4 (cs.drop 4)
      && exactRun isDigit 7 (cs.drop 8)
  then some (15 + min 16 (runLen isAlnum (cs.drop 15)))
  else none

/-- Pointwise character-class check for a fixed-shape pattern. -/
def matchClasses (ps : List (Char → Bool)) (cs : List Char) : Bool :=
  match ps, cs with
  | [], _ => true
  | _ :: _, [] => false
  | p :: ps, c :: cs => p c && matchClasses ps cs

/-- The 16 character classes of
`/[A-Z]{6}[0-9]{2}[A-Z][0-9]{2}[A-Z][0-9]{3}[A-Z]/gi` (FISCAL_CODE). -/
def fiscalClasses : List (Char → Bool) :=
  List.replicate 6 isAsciiLetter ++ List.replicate 2 isDigit ++ [isAsciiLetter] ++
  List.replicate 2 isDigit ++ [isAsciiLetter] ++ List.replicate 3 isDigit ++ [isAsciiLetter]

/-- The FISCAL_CODE matcher. -/
def matchFiscal (cs : List Char) : Option Nat :=
  if matchClasses fiscalClasses cs then some 16 else none

/-- The `(?:\d{4}[\s-]?){g+1}` followed by a final `\d{4}` when `g` hits 0; each
optional separator is consumed greedily and given up on backtracking. -/
def cardGroups : Nat → List Char → Option Nat
  | 0, cs => if exactRun isDigit 4 cs then some 4 else none
  | g + 1, cs =>
    if exactRun isDigit 4 cs then
      match cs.drop 4 with
      | c :: t =>
        if isCardSep c then
          match cardGroups g t with
          | some n => some (4 + 1 + n)
          | none => (cardGroups g (cs.drop 4)).map (fun n => 4 + n)
        else (cardGroups g (cs.drop 4)).map (fun n => 4 + n)
      | [] => (cardGroups g (cs.drop 4)).map (fun n => 4 + n)
    else none

/-- The `/(?:\d{4}[\s-]?){3}\d{4}/` (the CREDIT_CARD pattern). -/
def matchCard (cs : List Char) : Option Nat := cardGroups 3 cs

/-- The `\b` after a consumed character `last`, facing the remaining text. -/
def endBoundary (last : Char) (rest : List Char) : Bool :=
  match rest with
  | [] => isWordChar last
  | c :: _ => isWordChar last != isWordChar c

/-- Backtracking over the length of a greedy `[a-zàèéìòù]+` run: lengths
are tried from `k` down to 1, and the continuation `pg` receives the last
consumed character (for `\b`) and the remaining text. -/
def tryLens (pg : Char → List Char → Option Nat) (cs : List Char) : Nat → Option Nat
  | 0 => none
  | k + 1 =>
    match cs[k]? with
    | some lc =>
      match pg lc (cs.drop (k + 1)) with
      | some m => some (k + 1 + m)
      | none => tryLens pg cs k
    | none => tryLens pg cs k

/-- One `(?:\s+[A-Z][a-zàèéìòù]+)` group followed by the continuation
`pg`.  The `\s+` run and the capital letter never profit from backtracking
(the adjacent classes are disjoint), the final letter run does. -/
def personExt (pg : Char → List Char → Option Nat) (rest : List Char) : Option Nat :=
  if runLen isJsWs rest = 0 then none else
  match rest.drop (runLen isJsWs rest) with
  | c :: rest2 =>
    if isUpperAZ c then
      (tryLens pg rest2 (runLen isLowerName rest2)).map
        (fun n => runLen isJsWs rest + 1 + n)
    else none
  | [] => none

/-- Zero or more further `(?:\s+[A-Z][a-zàèéìòù]+)` groups, tried greedily,
then the trailing `\b`.  The fuel only bounds the recursion depth; every
group consumes at least three characters. -/
def personGroups : Nat → Char → List Char → Option Nat
  | 0, _, _ => none
  | f + 1, last, rest =>
    match personExt (personGroups f) rest with
    | some n => some n
    | none => if endBoundary last rest then some 0 else none

/-- The leading `\b` of the PERSON pattern, checked against the preceding
character (the first matched character is `[A-Z]`, a word character). -/
def personStartOk (prev : Option Char) : Bool :=
  match prev with
  | none => true
  | some p => !isWordChar p

/-- The `/\b[A-Z][a-zàèéìòù]+(?:\s+[A-Z][a-zàèéìòù]+)+\b/g` (the PERSON
pattern): the leading `\b` is checked against the preceding character, the
final `+` requires at least one group, and greedy runs backtrack exactly as
the engine does. -/
def matchPerson (prev : Option Char) (cs : List Char) : Option Nat :=
  if !personStartOk prev then none else
  match cs with
  | c :: rest =>
    if isUpperAZ c then
      (tryLens (fun _ r => personExt (personGroups cs.length) r) rest
        (runLen isLowerName rest)).map (fun n => 1 + n)
    else none
  | [] => none

/-! ### `detectEntities` -/

/-- The closed `EntityType` enumeration of `config.ts`. -/
inductive EntityType where
  | PERSON
  | EMAIL_ADDRESS
  | PHONE_NUMBER
  | IBAN_CODE
  | FISCAL_CODE
  | CREDIT_CARD
deriving DecidableEq, Repr

/-- The `DetectedEntity` of `detector.ts`; the source field `end` is a reserved
word in Lean and is called `stop` here. -/
structure DetectedEntity where
  type : EntityType
  value : List Char
  start : Nat
  stop : Nat
deriving DecidableEq, Repr

/-- A matcher together with the `\b` context it may need. -/
abbrev MatchFn := Option Char → List Char → Option Nat

/-- The `while ((match = pattern.exec(text)) !== null)` loop: positions are
tried left to right starting at `i`; a match of length `n` at `i` pushes
`{value := match[0], start := i, end := i + n}` and the scan resumes at
`lastIndex = i + n`.  Every embedded pattern only produces non-empty
matches, so `max n 1` merely totalizes the recursion. -/
def execLoop (t : EntityType) (m : MatchFn) (text : List Char) :
    Nat → Nat → List DetectedEntity
  | 0, _ => []
  | fuel + 1, i =>
    if i ≤ text.length then
      match m (if i = 0 then none else text[i - 1]?) (text.drop i) with
      | some n =>
        { type := t, value := (text.drop i).take n, start := i, stop := i + n } ::
          execLoop t m text fuel (i + max n 1)
      | none => execLoop t m text fuel (i + 1)
    else []

/-- One pattern scanned over the whole text. -/
def scanPattern (t : EntityType) (m : MatchFn) (text : List Char) : List DetectedEntity :=
  execLoop t m text (text.length + 2) 0

/-- The `detectEntities`: the six patterns are scanned in the insertion order of
the `PATTERNS` object literal, then
`entities.sort((a, b) => b.start - a.start)` orders the result by
descending `start`.  `Array.prototype.sort` is a stable sort, and a stable
sort under a total preorder comparator is a unique function, so the stable
`insertionSort` models it exactly. -/
def detectEntities (text : List Char) : List DetectedEntity :=
  (scanPattern .EMAIL_ADDRESS (fun _ cs => matchEmail cs) text ++
    scanPattern .PHONE_NUMBER (fun _ cs => matchPhone cs) text ++
    scanPattern .IBAN_CODE (fun _ cs => matchIban cs) text ++
    scanPattern .FISCAL_CODE (fun _ cs => matchFiscal cs) text ++
    scanPattern .CREDIT_CARD (fun _ cs => matchCard cs) text ++
    scanPattern .PERSON matchPerson text).insertionSort
    (fun a b => b.start ≤ a.start)

/-! ### The faker (`faker.ts`) -/

/-- One JavaScript `Map<string, string>`: an insertion-ordered association
list; `set` on an existing key updates it in place. -/
abbrev JsMap := List (List Char × List Char)

/-- The `map.has(k)`. -/
def jsMapHas (m : JsMap) (k : List Char) : Bool := m.any (fun e => e.1 == k)

/-- The `map.get(k)` (`undefined` is `none`). -/
def jsMapGet (m : JsMap) (k : List Char) : Option (List Char) :=
  (m.find? (fun e => e.1 == k)).map (fun e => e.2)

/-- The `map.set(k, v)`. -/
def jsMapSet (m : JsMap) (k v : List Char) : JsMap :=
  match m with
  | [] => [(k, v)]
  | e :: rest => if e.1 == k then (k, v) :: rest else e :: jsMapSet rest k v

/-- The `entityMaps` record: one consistency map per category. -/
structure EntityMaps where
  PERSON : JsMap
  EMAIL_ADDRESS : JsMap
  PHONE_NUMBER : JsMap
  IBAN_CODE : JsMap
  FISCAL_CODE : JsMap
  CREDIT_CARD : JsMap
deriving DecidableEq, Repr

/-- The `entityMaps[type]` for a statically typed key. -/
def entityMapsGet (M : EntityMaps) : EntityType → JsMap
  | .PERSON => M.PERSON
  | .EMAIL_ADDRESS => M.EMAIL_ADDRESS
  | .PHONE_NUMBER => M.PHONE_NUMBER
  | .IBAN_CODE => M.IBAN_CODE
  | .FISCAL_CODE => M.FISCAL_CODE
  | .CREDIT_CARD => M.CREDIT_CARD

/-- Update of one field of `entityMaps`. -/
def entityMapsSet (M : EntityMaps) : EntityType → JsMap → EntityMaps
  | .PERSON, m => { M with PERSON := m }
  | .EMAIL_ADDRESS, m => { M with EMAIL_ADDRESS := m }
  | .PHONE_NUMBER, m => { M with PHONE_NUMBER := m }
  | .IBAN_CODE, m => { M with IBAN_CODE := m }
  | .FISCAL_CODE, m => { M with FISCAL_CODE := m }
  | .CREDIT_CARD, m => { M with CREDIT_CARD := m }

/-- The faker's state: the consistency maps plus the position reached in
the random stream consumed by the `@faker-js/faker` calls. -/
structure FakerState where
  maps : EntityMaps
  ctr : Nat
deriving DecidableEq, Repr

/-- The empty state (all maps empty, stream at a given position). -/
def emptyMaps : EntityMaps := ⟨[], [], [], [], [], []⟩

/-- The random value oracle: `gen t k` is the value the faker synthesizes
for category `t` at stream position `k`. -/
abbrev Gen := EntityType → Nat → List Char

/-- The `generateFakeValue`: each branch of the exhaustive `switch` invokes the
faker once, modelled by consulting the oracle at the current stream
position. -/
def generateFakeValue (gen : Gen) (t : EntityType) (ctr : Nat) : List Char := gen t ctr

/-- The `getFakeValue(type, originalValue)`:
`if (!map.has(v)) map.set(v, generateFakeValue(type)); return map.get(v)!`. -/
def getFakeValue (gen : Gen) (t : EntityType) (originalValue : List Char) (s : FakerState) :
    List Char × FakerState :=
  let map := entityMapsGet s.maps t
  let s1 :=
    if jsMapHas map originalValue then s
    else
      { maps := entityMapsSet s.maps t
          (jsMapSet map originalValue (generateFakeValue gen t s.ctr)),
        ctr := s.ctr + 1 }
  ((jsMapGet (entityMapsGet s1.maps t) originalValue).getD [], s1)

/-- The `resetMaps()`: clears every per-category map (the random stream of the
process is untouched). -/
def resetMaps (s : FakerState) : FakerState :=
  { maps := emptyMaps, ctr := s.ctr }

/-! ### The faker at runtime string keys (for the defensive `default` path) -/

/-- The runtime random oracle, keyed by the string value of the type. -/
abbrev GenRT := String → Nat → List Char

/-- The `entityMaps[type]` for a runtime string key: the record literal has
exactly the six keys; any other key reads `undefined`. -/
def entityMapsGetRT (M : EntityMaps) (t : String) : Option JsMap :=
  if t = "PERSON" then some M.PERSON
  else if t = "EMAIL_ADDRESS" then some M.EMAIL_ADDRESS
  else if t = "PHONE_NUMBER" then some M.PHONE_NUMBER
  else if t = "IBAN_CODE" then some M.IBAN_CODE
  else if t = "FISCAL_CODE" then some M.FISCAL_CODE
  else if t = "CREDIT_CARD" then some M.CREDIT_CARD
  else none

/-- Field update of `entityMaps` by runtime key (only reached on the six
known keys). -/
def entityMapsSetRT (M : EntityMaps) (t : String) (m : JsMap) : EntityMaps :=
  if t = "PERSON" then { M with PERSON := m }
  else if t = "EMAIL_ADDRESS" then { M with EMAIL_ADDRESS := m }
  else if t = "PHONE_NUMBER" then { M with PHONE_NUMBER := m }
  else if t = "IBAN_CODE" then { M with IBAN_CODE := m }
  else if t = "FISCAL_CODE" then { M with FISCAL_CODE := m }
  else if t = "CREDIT_CARD" then { M with CREDIT_CARD := m }
  else M

/-- The `generateFakeValue` seen at runtime: the six known cases of the
`switch` call the faker; the `default` branch returns the marked
placeholder embedding the type name. -/
def generateFakeValueRT (gen : GenRT) (t : String) (ctr : Nat) : List Char :=
  if t = "PERSON" ∨ t = "EMAIL_ADDRESS" ∨ t = "PHONE_NUMBER" ∨ t = "IBAN_CODE" ∨
      t = "FISCAL_CODE" ∨ t = "CREDIT_CARD" then
    gen t ctr
  else ("[REDACTED_" ++ t ++ "]").data

/-- The `getFakeValue` seen at runtime: when `type` is not one of the six keys,
`entityMaps[type]` is `undefined` and `.has` throws a `TypeError` before
`generateFakeValue` is ever reached. -/
def getFakeValueRT (gen : GenRT) (t : String) (originalValue : List Char) (s : FakerState) :
    Except String (List Char × FakerState) :=
  match entityMapsGetRT s.maps t with
  | none => .error "TypeError: Cannot read properties of undefined (reading has)"
  | some map =>
    let s1 :=
      if jsMapHas map originalValue then s
      else
        { maps := entityMapsSetRT s.maps t
            (jsMapSet map originalValue (generateFakeValueRT gen t s.ctr)),
          ctr := s.ctr + 1 }
    .ok ((jsMapGet ((entityMapsGetRT s1.maps t).getD []) originalValue).getD [], s1)

/-! ### The anonymization engine (`anonymizer.ts`) -/

/-- The `CHUNK_SIZE` of `config.ts`. -/
def CHUNK_SIZE : Nat := 80000

/-- The substitution loop of `anonymizeText`:
`result = result.substring(0, e.start) + fake + result.substring(e.end)`.
For `a ≤ b ≤ result.length`, `substring(0, a)` is `take a` and
`substring(b)` is `drop b` (both `substring` forms clamp, as `take` and
`drop` do). -/
def substituteAll (gen : Gen) :
    List DetectedEntity → List Char → FakerState → List Char × FakerState
  | [], result, s => (result, s)
  | e :: rest, result, s =>
    let p := getFakeValue gen e.type e.value s
    substituteAll gen rest (result.take e.start ++ p.1 ++ result.drop e.stop) p.2

/-- The `anonymizeText`. -/
def anonymizeText (gen : Gen) (text : List Char) (s : FakerState) :
    List Char × FakerState :=
  substituteAll gen (detectEntities text) text s

/-- The chunk-building loop of `anonymizeTextChunked`:
`for (let i = 0; i < text.length; i += CHUNK_SIZE)
chunks.push(text.substring(i, i + CHUNK_SIZE))`. -/
def chunksFrom (text : List Char) (i : Nat) : List (List Char) :=
  if i < text.length then
    (text.take (i + CHUNK_SIZE)).drop i :: chunksFrom text (i + CHUNK_SIZE)
  else []
termination_by text.length - i
decreasing_by simp only [CHUNK_SIZE]; omega

/-- The per-chunk loop: each chunk goes through `anonymizeText`, the
consistency state threading through in order. -/
def anonymizeChunks (gen : Gen) :
    List (List Char) → FakerState → List (List Char) × FakerState
  | [], s => ([], s)
  | c :: cs, s =>
    let p := anonymizeText gen c s
    let q := anonymizeChunks gen cs p.2
    (p.1 :: q.1, q.2)

/-- The `anonymizeTextChunked`: split, anonymize each chunk, `join("")`. -/
def anonymizeTextChunked (gen : Gen) (text : List Char) (s : FakerState) :
    List Char × FakerState :=
  let p := anonymizeChunks gen (chunksFrom text 0) s
  (p.1.flatten, p.2)

/-! ### Specification-side predicates -/

/-- The outside-span structure of a substitution: spans are given in the
descending-start order in which the engine processes them, `reps` holds one
replacement per span, and every character of `text` outside the spans is
kept, in order, by the interleaving. -/
def spliceR (text : List Char) : List (Nat × Nat) → List (List Char) → List Char
  | [], _ => text
  | _ :: _, [] => text
  | (a, b) :: rest, r :: rs => spliceR (text.take a) rest rs ++ r ++ text.drop b

/-- A capitalized word: an ASCII capital followed by one or more letters of
`[a-zàèéìòù]`. -/
def capWordB (w : List Char) : Bool :=
  match w with
  | c :: rest => isUpperAZ c && !rest.isEmpty && rest.all isLowerName
  | [] => false

/-- The `(sep word)*` tails of a whitespace-separated capitalized-words
phrase: each separator is a non-empty whitespace run. -/
inductive WsWordsTail : List Char → Prop
  | nil : WsWordsTail []
  | cons (s w t : List Char) : s ≠ [] → (∀ c ∈ s, isJsWs c = true) → capWordB w = true →
      WsWordsTail t → WsWordsTail (s ++ (w ++ t))

/-- Two or more capitalized words separated by (non-empty) whitespace runs. -/
def IsPersonShape (l : List Char) : Prop :=
  ∃ w t, capWordB w = true ∧ WsWordsTail t ∧ t ≠ [] ∧ l = w ++ t

/-- Two or more capitalized words separated by single spaces (the shape the
specification sentence describes). -/
def singleSpacedCapWords (l : List Char) : Bool :=
  let ws := l.splitOn ' '
  2 ≤ ws.length && ws.all capWordB

/-! ### Facts about greedy runs -/

theorem runLen_le (p : Char → Bool) : ∀ cs : List Char, runLen p cs ≤ cs.length
  | [] => Nat.le_refl 0
  | c :: cs => by
    simp only [runLen, List.length_cons]
    split
    · exact Nat.succ_le_succ (runLen_le p cs)
    · exact Nat.zero_le _

theorem all_take_of_le_runLen (p : Char → Bool) :
    ∀ (cs : List Char) (n : Nat), n ≤ runLen p cs → ∀ c ∈ cs.take n, p c = true
  | _, 0, _ => by simp
  | [], n + 1, h => by simp [runLen] at h
  | c :: cs, n + 1, h => by
    simp only [runLen] at h
    by_cases hc : p c
    · simp only [hc, if_true] at h
      intro x hx
      simp only [List.take_succ_cons, List.mem_cons] at hx
      rcases hx with rfl | hx
      · exact hc
      · exact all_take_of_le_runLen p cs n (by omega) x hx
    · rw [if_neg hc] at h
      omega

theorem exactRun_le {p : Char → Bool} {k : Nat} {cs : List Char}
    (h : exactRun p k cs = true) : k ≤ cs.length := by
  simp only [exactRun, Bool.and_eq_true, decide_eq_true_eq] at h
  exact h.1

/-! ### Bounds of the matchers: a match is non-empty and stays inside the
remaining text -/

theorem emailTld_bound {cs : List Char} : ∀ {d n : Nat}, emailTld cs d = some n →
    1 ≤ n ∧ n ≤ cs.length := by
  intro d
  induction d with
  | zero => intro n h; simp [emailTld] at h
  | succ d ih =>
    intro n h
    unfold emailTld at h
    split at h
    · rename_i hcond
      simp only [Bool.and_eq_true, decide_eq_true_eq] at hcond
      obtain ⟨hdot, _⟩ := hcond
      obtain ⟨hlt, -⟩ := List.getElem?_eq_some.mp hdot
      have hrun := runLen_le isAsciiLetter (cs.drop (d + 2))
      simp only [List.length_drop] at hrun
      injection h with h
      omega
    · exact ih h

theorem matchEmail_bound {cs : List Char} {n : Nat} (h : matchEmail cs = some n) :
    1 ≤ n ∧ n ≤ cs.length := by
  unfold matchEmail at h
  simp only at h
  split at h
  · exact absurd h (by simp)
  · split at h
    · rename_i ds hdrop
      split at h
      · rename_i t ht
        injection h with h
        have hlen := congrArg List.length hdrop
        simp only [List.length_drop, List.length_cons] at hlen
        have hlp := runLen_le isLocalChar cs
        have := emailTld_bound ht
        omega
      · exact absurd h (by simp)
    · exact absurd h (by simp)

theorem digitsRange_bound {lo hi n : Nat} {cs : List Char}
    (h : digitsRange lo hi cs = some n) : min lo hi ≤ n ∧ n ≤ cs.length := by
  simp only [digitsRange] at h
  split at h
  · rename_i hr
    have := runLen_le isDigit cs
    injection h with h
    omega
  · exact absurd h (by simp)

theorem optSepDigits_bound {sep : Char → Bool} {lo hi n : Nat} {cs : List Char}
    (hlo : 1 ≤ lo) (hhi : 1 ≤ hi) (h : optSepDigits sep lo hi cs = some n) :
    1 ≤ n ∧ n ≤ cs.length := by
  unfold optSepDigits at h
  split at h
  · rename_i c t
    split at h
    · split at h
      · rename_i m hm
        injection h with h
        have := digitsRange_bound hm
        simp only [List.length_cons]
        omega
      · have := digitsRange_bound h
        omega
    · have := digitsRange_bound h
      omega
  · have := digitsRange_bound h
    omega

theorem phoneAlt1_bound {cs : List Char} {n : Nat} (h : phoneAlt1 cs = some n) :
    1 ≤ n ∧ n ≤ cs.length := by
  unfold phoneAlt1 at h
  split at h
  · rename_i rest
    split at h
    · rename_i hex
      simp only [Option.map_eq_some'] at h
      obtain ⟨m, hm, rfl⟩ := h
      have hb := optSepDigits_bound (by omega) (by omega) hm
      have hex2 := exactRun_le hex
      simp only [List.length_drop] at hb
      simp only [List.length_cons]
      omega
    · exact absurd h (by simp)
  · exact absurd h (by simp)

theorem phoneAlt2Core_bound {rest : List Char} : ∀ {k n : Nat},
    phoneAlt2Core rest k = some n → 1 ≤ n ∧ n ≤ rest.length := by
  intro k
  induction k with
  | zero => intro n h; simp [phoneAlt2Core] at h
  | succ k ih =>
    intro n h
    unfold phoneAlt2Core at h
    split at h
    · rename_i hex
      split at h
      · rename_i m hm
        injection h with h
        have hb := optSepDigits_bound (by omega) (by omega) hm
        have hex2 := exactRun_le hex
        simp only [List.length_drop] at hb
        omega
      · exact ih h
    · exact ih h

theorem phoneAlt2_bound {cs : List Char} {n : Nat} (h : phoneAlt2 cs = some n) :
    1 ≤ n ∧ n ≤ cs.length := by
  unfold phoneAlt2 at h
  split at h
  · rename_i rest
    simp only [Option.map_eq_some'] at h
    obtain ⟨m, hm, rfl⟩ := h
    have := phoneAlt2Core_bound hm
    simp only [List.length_cons]
    omega
  · exact absurd h (by simp)

theorem phoneCore_bound {cs : List Char} {n : Nat} (h : phoneCore cs = some n) :
    1 ≤ n ∧ n ≤ cs.length := by
  unfold phoneCore at h
  split at h
  · rename_i m hm
    injection h with h
    subst h
    exact phoneAlt1_bound hm
  · exact phoneAlt2_bound h

theorem phonePrefixed_bound {rest : List Char} {n : Nat} (h : phonePrefixed rest = some n) :
    1 ≤ n ∧ n ≤ rest.length + 3 := by
  unfold phonePrefixed at h
  split at h
  · rename_i c t
    split at h
    · split at h
      · rename_i m hm
        injection h with h
        have := phoneCore_bound hm
        simp only [List.length_cons]
        omega
      · simp only [Option.map_eq_some'] at h
        obtain ⟨m, hm, rfl⟩ := h
        have := phoneCore_bound hm
        simp only [List.length_cons] at this ⊢
        omega
    · simp only [Option.map_eq_some'] at h
      obtain ⟨m, hm, rfl⟩ := h
      have := phoneCore_bound hm
      simp only [List.length_cons] at this ⊢
      omega
  · exact absurd h (by simp)

theorem matchPhone_bound {cs : List Char} {n : Nat} (h : matchPhone cs = some n) :
    1 ≤ n ∧ n ≤ cs.length := by
  unfold matchPhone at h
  split at h
  · rename_i rest
    split at h
    · rename_i m hm
      injection h with h
      subst h
      have := phonePrefixed_bound hm
      simp only [List.length_cons]
      omega
    · exact phoneCore_bound h
  · exact phoneCore_bound h

theorem matchIban_bound {cs : List Char} {n : Nat} (h : matchIban cs = some n) :
    1 ≤ n ∧ n ≤ cs.length := by
  unfold matchIban at h
  split at h
  · rename_i hc
    simp only [Bool.and_eq_true] at hc
    obtain ⟨⟨⟨h1, h2⟩, h3⟩, h4⟩ := hc
    have h4' := exactRun_le h4
    have hr := runLen_le isAlnum (cs.drop 15)
    simp only [List.length_drop] at h4' hr
    injection h with h
    omega
  · exact absurd h (by simp)

theorem matchClasses_le : ∀ {ps : List (Char → Bool)} {cs : List Char},
    matchClasses ps cs = true → ps.length ≤ cs.length
  | [], _, _ => by simp
  | p :: ps, [], h => by simp [matchClasses] at h
  | p :: ps, c :: cs, h => by
    simp only [matchClasses, Bool.and_eq_true] at h
    simp only [List.length_cons]
    exact Nat.succ_le_succ (matchClasses_le h.2)

theorem matchFiscal_bound {cs : List Char} {n : Nat} (h : matchFiscal cs = some n) :
    1 ≤ n ∧ n ≤ cs.length := by
  unfold matchFiscal at h
  split at h
  · rename_i hc
    injection h with h
    have h16 := matchClasses_le hc
    have hl : fiscalClasses.length = 16 := by rfl
    omega
  · exact absurd h (by simp)

theorem cardGroups_bound : ∀ {g : Nat} {cs : List Char} {n : Nat},
    cardGroups g cs = some n → 1 ≤ n ∧ n ≤ cs.length
  | 0, cs, n, h => by
    unfold cardGroups at h
    split at h
    · rename_i hex
      injection h with h
      have := exactRun_le hex
      omega
    · exact absurd h (by simp)
  | g + 1, cs, n, h => by
    unfold cardGroups at h
    split at h
    · rename_i hex
      have hex' := exactRun_le hex
      split at h
      · rename_i c t hdrop
        have hlen := congrArg List.length hdrop
        simp only [List.length_drop, List.length_cons] at hlen
        split at h
        · split at h
          · rename_i m hm
            injection h with h
            have := cardGroups_bound hm
            omega
          · simp only [Option.map_eq_some'] at h
            obtain ⟨m, hm, rfl⟩ := h
            have := cardGroups_bound hm
            simp only [List.length_drop] at this
            omega
        · simp only [Option.map_eq_some'] at h
          obtain ⟨m, hm, rfl⟩ := h
          have := cardGroups_bound hm
          simp only [List.length_drop] at this
          omega
      · simp only [Option.map_eq_some'] at h
        obtain ⟨m, hm, rfl⟩ := h
        have := cardGroups_bound hm
        simp only [List.length_drop] at this
        omega
    · exact absurd h (by simp)

theorem matchCard_bound {cs : List Char} {n : Nat} (h : matchCard cs = some n) :
    1 ≤ n ∧ n ≤ cs.length := cardGroups_bound h

/-! ### Analysis of the PERSON matcher -/

theorem tryLens_eq {pg : Char → List Char → Option Nat} {cs : List Char} :
    ∀ {k n : Nat}, tryLens pg cs k = some n →
      ∃ l m lc, n = l + m ∧ 1 ≤ l ∧ l ≤ k ∧ cs[l - 1]? = some lc ∧
        pg lc (cs.drop l) = some m := by
  intro k
  induction k with
  | zero => intro n h; simp [tryLens] at h
  | succ k ih =>
    intro n h
    unfold tryLens at h
    split at h
    · rename_i lc0 hlc
      split at h
      · rename_i m0 hm0
        injection h with h
        exact ⟨k + 1, m0, lc0, by omega, by omega, Nat.le_refl _, by simpa using hlc, hm0⟩
      · obtain ⟨l, m, lc, h1, h2, h3, h4, h5⟩ := ih h
        exact ⟨l, m, lc, h1, h2, by omega, h4, h5⟩
    · obtain ⟨l, m, lc, h1, h2, h3, h4, h5⟩ := ih h
      exact ⟨l, m, lc, h1, h2, by omega, h4, h5⟩

theorem personExt_eq {pg : Char → List Char → Option Nat} {rest : List Char} {n : Nat}
    (h : personExt pg rest = some n) :
    ∃ c rest2 l m lc,
      1 ≤ runLen isJsWs rest ∧ rest.drop (runLen isJsWs rest) = c :: rest2 ∧
      isUpperAZ c = true ∧ 1 ≤ l ∧ l ≤ runLen isLowerName rest2 ∧
      rest2[l - 1]? = some lc ∧ pg lc (rest2.drop l) = some m ∧
      n = runLen isJsWs rest + 1 + (l + m) := by
  unfold personExt at h
  split at h
  · exact absurd h (by simp)
  · split at h
    · rename_i c rest2 hdrop
      split at h
      · rename_i hc
        simp only [Option.map_eq_some'] at h
        obtain ⟨m0, hm0, rfl⟩ := h
        obtain ⟨l, m, lc, h1, h2, h3, h4, h5⟩ := tryLens_eq hm0
        exact ⟨c, rest2, l, m, lc, by omega, hdrop, hc, h2, by omega, h4, h5, by omega⟩
      · exact absurd h (by simp)
    · exact absurd h (by simp)

theorem personGroups_bound : ∀ {f : Nat} {last : Char} {rest : List Char} {n : Nat},
    personGroups f last rest = some n → n ≤ rest.length := by
  intro f
  induction f with
  | zero => intro last rest n h; simp [personGroups] at h
  | succ f ih =>
    intro last rest n h
    unfold personGroups at h
    split at h
    · rename_i m hm
      injection h with h
      subst h
      obtain ⟨c, rest2, l, m', lc, hw, hdrop, hc, hl1, hl2, hlc, hpg, hn⟩ := personExt_eq hm
      have hwle := runLen_le isJsWs rest
      have hlen := congrArg List.length hdrop
      simp only [List.length_drop, List.length_cons] at hlen
      have hrun2 := runLen_le isLowerName rest2
      have hm' := ih hpg
      simp only [List.length_drop] at hm'
      omega
    · split at h
      · injection h with h
        omega
      · exact absurd h (by simp)

theorem personExt_groups_bound {f : Nat} {rest : List Char} {n : Nat}
    (h : personExt (personGroups f) rest = some n) : 1 ≤ n ∧ n ≤ rest.length := by
  obtain ⟨c, rest2, l, m, lc, hw, hdrop, hc, hl1, hl2, hlc, hpg, hn⟩ := personExt_eq h
  have hb := personGroups_bound hpg
  have hwle := runLen_le isJsWs rest
  have hlen := congrArg List.length hdrop
  simp only [List.length_drop, List.length_cons] at hlen
  simp only [List.length_drop] at hb
  have hrun2 := runLen_le isLowerName rest2
  omega

theorem matchPerson_bound {prev : Option Char} {cs : List Char} {n : Nat}
    (h : matchPerson prev cs = some n) : 1 ≤ n ∧ n ≤ cs.length := by
  unfold matchPerson at h
  split at h
  · exact absurd h (by simp)
  · split at h
    · rename_i c rest
      split at h
      · simp only [Option.map_eq_some'] at h
        obtain ⟨m0, hm0, rfl⟩ := h
        obtain ⟨l, m, lc, h1, h2, h3, h4, h5⟩ := tryLens_eq hm0
        have hb := personExt_groups_bound h5
        simp only [List.length_drop] at hb
        have hrun := runLen_le isLowerName rest
        simp only [List.length_cons]
        omega
      · exact absurd h (by simp)
    · exact absurd h (by simp)

/-! ### The scan loop and `detectEntities` -/

theorem mem_execLoop {t : EntityType} {m : MatchFn} {text : List Char} :
    ∀ {fuel i : Nat} {e : DetectedEntity}, e ∈ execLoop t m text fuel i →
      ∃ j n, m (if j = 0 then none else text[j - 1]?) (text.drop j) = some n ∧
        j ≤ text.length ∧ e = ⟨t, (text.drop j).take n, j, j + n⟩ := by
  intro fuel
  induction fuel with
  | zero => intro i e h; simp [execLoop] at h
  | succ fuel ih =>
    intro i e h
    unfold execLoop at h
    split at h
    · rename_i hi
      split at h
      · rename_i n hn
        rcases List.mem_cons.mp h with rfl | h
        · exact ⟨i, n, hn, hi, rfl⟩
        · exact ih h
      · exact ih h
    · simp at h

theorem mem_scanPattern {t : EntityType} {m : MatchFn} {text : List Char} {e : DetectedEntity}
    (h : e ∈ scanPattern t m text) :
    ∃ j n, m (if j = 0 then none else text[j - 1]?) (text.drop j) = some n ∧
      j ≤ text.length ∧ e = ⟨t, (text.drop j).take n, j, j + n⟩ :=
  mem_execLoop h

theorem scanPattern_type {t : EntityType} {m : MatchFn} {text : List Char} {e : DetectedEntity}
    (h : e ∈ scanPattern t m text) : e.type = t := by
  obtain ⟨j, n, -, -, rfl⟩ := mem_scanPattern h
  rfl

theorem scanPattern_bounds {t : EntityType} {m : MatchFn} {text : List Char} {e : DetectedEntity}
    (hm : ∀ p cs n, m p cs = some n → 1 ≤ n ∧ n ≤ cs.length)
    (h : e ∈ scanPattern t m text) :
    e.start < e.stop ∧ e.stop ≤ text.length ∧
      e.value = (text.drop e.start).take (e.stop - e.start) := by
  obtain ⟨j, n, hn, hj, rfl⟩ := mem_scanPattern h
  obtain ⟨h1, h2⟩ := hm _ _ _ hn
  simp only [List.length_drop] at h2
  refine ⟨by simp only; omega, by simp only; omega, ?_⟩
  simp only
  congr 1
  omega

theorem mem_detectEntities_iff {text : List Char} {e : DetectedEntity} :
    e ∈ detectEntities text ↔
      e ∈ scanPattern .EMAIL_ADDRESS (fun _ cs => matchEmail cs) text ∨
      e ∈ scanPattern .PHONE_NUMBER (fun _ cs => matchPhone cs) text ∨
      e ∈ scanPattern .IBAN_CODE (fun _ cs => matchIban cs) text ∨
      e ∈ scanPattern .FISCAL_CODE (fun _ cs => matchFiscal cs) text ∨
      e ∈ scanPattern .CREDIT_CARD (fun _ cs => matchCard cs) text ∨
      e ∈ scanPattern .PERSON matchPerson text := by
  unfold detectEntities
  rw [List.Perm.mem_iff (List.perm_insertionSort _ _)]
  simp only [List.mem_append]
  tauto

/-- The span invariant of every detected entity (shared helper). -/
theorem detect_span_invariant (text : List Char) (e : DetectedEntity)
    (h : e ∈ detectEntities text) :
    e.start < e.stop ∧ e.stop ≤ text.length ∧
      e.value = (text.drop e.start).take (e.stop - e.start) := by
  rcases mem_detectEntities_iff.mp h with h | h | h | h | h | h
  · exact scanPattern_bounds (fun p cs n hn => matchEmail_bound hn) h
  · exact scanPattern_bounds (fun p cs n hn => matchPhone_bound hn) h
  · exact scanPattern_bounds (fun p cs n hn => matchIban_bound hn) h
  · exact scanPattern_bounds (fun p cs n hn => matchFiscal_bound hn) h
  · exact scanPattern_bounds (fun p cs n hn => matchCard_bound hn) h
  · exact scanPattern_bounds (fun p cs n hn => matchPerson_bound hn) h

/-- The result of `detectEntities` is sorted by descending `start` (shared
helper). -/
theorem detect_sorted (text : List Char) :
    (detectEntities text).Pairwise (fun a b => b.start ≤ a.start) := by
  unfold detectEntities
  haveI : IsTotal DetectedEntity (fun a b => b.start ≤ a.start) :=
    ⟨fun a b => Nat.le_total _ _⟩
  haveI : IsTrans DetectedEntity (fun a b => b.start ≤ a.start) :=
    ⟨fun a b c h1 h2 => Nat.le_trans h2 h1⟩
  exact List.sorted_insertionSort _ _

/-! ### Facts about the consistency maps -/

theorem entityMapsGet_set (M : EntityMaps) (t : EntityType) (m : JsMap) :
    entityMapsGet (entityMapsSet M t m) t = m := by
  cases t <;> rfl

theorem jsMapHas_set_self (m : JsMap) (k v : List Char) :
    jsMapHas (jsMapSet m k v) k = true := by
  induction m with
  | nil => simp [jsMapSet, jsMapHas]
  | cons e rest ih =>
    unfold jsMapSet
    split
    · simp [jsMapHas]
    · simp only [jsMapHas, List.any_cons, Bool.or_eq_true] at ih ⊢
      right
      exact ih

theorem jsMapGet_set_self (m : JsMap) (k v : List Char) :
    jsMapGet (jsMapSet m k v) k = some v := by
  induction m with
  | nil => simp [jsMapSet, jsMapGet]
  | cons e rest ih =>
    unfold jsMapSet
    split
    · rename_i he
      simp only [jsMapGet]
      rw [List.find?_cons_of_pos]
      · rfl
      · simp
    · rename_i he
      simp only [jsMapGet] at ih ⊢
      rw [List.find?_cons_of_neg]
      · exact ih
      · simpa using he

/-! ### Claims C2, C3, C5, C6, C7, C8 -/

/-- C2: resolving the same `(type, originalValue)` pair a second time
returns exactly the stored value of the first call and leaves the state
(consistency maps and random stream) unchanged. -/
theorem C2_second_resolve_pure (gen : Gen) (t : EntityType) (v : List Char) (s : FakerState) :
    getFakeValue gen t v ((getFakeValue gen t v s).2) =
      ((getFakeValue gen t v s).1, (getFakeValue gen t v s).2) := by
  by_cases h : jsMapHas (entityMapsGet s.maps t) v = true
  · simp [getFakeValue, h]
  · simp only [Bool.not_eq_true] at h
    simp [getFakeValue, h, entityMapsGet_set, jsMapHas_set_self, jsMapGet_set_self]

/-- C3: for any input, consecutive entities in the result of
`detectEntities` have non-increasing `start` offsets (rightmost first). -/
theorem C3_descending_start (text : List Char) :
    List.Chain' (fun a b : DetectedEntity => b.start ≤ a.start) (detectEntities text) :=
  (detect_sorted text).chain'

/-- C5: every detected entity satisfies
`0 ≤ start < end ≤ len(text)` and `value = text[start:end]`. -/
theorem C5_span_invariant (text : List Char) (e : DetectedEntity)
    (h : e ∈ detectEntities text) :
    0 ≤ e.start ∧ e.start < e.stop ∧ e.stop ≤ text.length ∧
      e.value = (text.drop e.start).take (e.stop - e.start) :=
  ⟨Nat.zero_le _, detect_span_invariant text e h⟩

/-- C5 witness: the invariant at a concrete detected entity. -/
theorem C5_witness :
    (⟨.EMAIL_ADDRESS, String.data "a@b.it", 0, 6⟩ : DetectedEntity) ∈
        detectEntities (String.data "a@b.it") ∧
      0 ≤ (0 : Nat) ∧ 0 < 6 ∧ 6 ≤ (String.data "a@b.it").length ∧
      String.data "a@b.it" =
        ((String.data "a@b.it").drop 0).take (6 - 0) := by
  refine ⟨by decide, ?_⟩
  exact C5_span_invariant (String.data "a@b.it") ⟨.EMAIL_ADDRESS, String.data "a@b.it", 0, 6⟩
    (by decide)

/-- C8: on an input with no detected entities, `anonymizeText` returns the
text unchanged and does not touch the consistency state. -/
theorem C8_no_pii_identity (gen : Gen) (s : FakerState) (text : List Char)
    (h : detectEntities text = []) : anonymizeText gen text s = (text, s) := by
  unfold anonymizeText
  rw [h]
  rfl

/-- C8 witness: a concrete match-free input. -/
theorem C8_witness :
    detectEntities (String.data "ciao!") = [] ∧
      anonymizeText (fun _ _ => ['z']) (String.data "ciao!") ⟨emptyMaps, 7⟩ =
        (String.data "ciao!", ⟨emptyMaps, 7⟩) :=
  ⟨by decide, C8_no_pii_identity _ _ _ (by decide)⟩

/-- C7: after `resetMaps` every consistency map is empty: no pair is found,
and resolution afterwards does not depend on the prior map contents (only
on the position of the process-wide random stream). -/
theorem C7_reset_clears (s s' : FakerState) (hc : s.ctr = s'.ctr) :
    (∀ t v, jsMapHas (entityMapsGet (resetMaps s).maps t) v = false) ∧
    (∀ gen t v, getFakeValue gen t v (resetMaps s) = getFakeValue gen t v (resetMaps s')) := by
  constructor
  · intro t v
    cases t <;> rfl
  · intro gen t v
    unfold resetMaps
    rw [hc]

/-- C7 witness: concrete states with equal stream positions and different
prior maps. -/
theorem C7_witness :
    jsMapHas (entityMapsGet
        (resetMaps ⟨⟨[(['a'], ['x'])], [], [], [], [], []⟩, 5⟩).maps .PERSON) ['a'] = false ∧
      getFakeValue (fun _ _ => ['z']) .PERSON ['a']
          (resetMaps ⟨⟨[(['a'], ['x'])], [], [], [], [], []⟩, 5⟩) =
        getFakeValue (fun _ _ => ['z']) .PERSON ['a'] (resetMaps ⟨emptyMaps, 5⟩) :=
  ⟨(C7_reset_clears ⟨⟨[(['a'], ['x'])], [], [], [], [], []⟩, 5⟩ ⟨emptyMaps, 5⟩ rfl).1 _ _,
    (C7_reset_clears ⟨⟨[(['a'], ['x'])], [], [], [], [], []⟩, 5⟩ ⟨emptyMaps, 5⟩ rfl).2 _ _ _⟩

theorem entityMapsGetRT_unknown (M : EntityMaps) (t : String)
    (h : ¬(t = "PERSON" ∨ t = "EMAIL_ADDRESS" ∨ t = "PHONE_NUMBER" ∨ t = "IBAN_CODE" ∨
      t = "FISCAL_CODE" ∨ t = "CREDIT_CARD")) : entityMapsGetRT M t = none := by
  push_neg at h
  obtain ⟨h1, h2, h3, h4, h5, h6⟩ := h
  simp [entityMapsGetRT, h1, h2, h3, h4, h5, h6]

/-- C6 (amended): for a type outside the closed enumeration, the synthesis
function `generateFakeValue` does return the marked placeholder
`[REDACTED_<type>]`, but `getFakeValue` itself throws a `TypeError` at the
`entityMaps[type].has` lookup before that defensive branch can be reached. -/
theorem C6_amended (t : String)
    (h : ¬(t = "PERSON" ∨ t = "EMAIL_ADDRESS" ∨ t = "PHONE_NUMBER" ∨ t = "IBAN_CODE" ∨
      t = "FISCAL_CODE" ∨ t = "CREDIT_CARD")) :
    (∀ gen ctr, generateFakeValueRT gen t ctr = ("[REDACTED_" ++ t ++ "]").data) ∧
    (∀ gen v s, getFakeValueRT gen t v s =
      Except.error "TypeError: Cannot read properties of undefined (reading has)") := by
  constructor
  · intro gen ctr
    unfold generateFakeValueRT
    rw [if_neg h]
  · intro gen v s
    unfold getFakeValueRT
    rw [entityMapsGetRT_unknown _ _ h]

/-- C6 witness: the amended behaviour at the concrete unknown type
`LOCATION`. -/
theorem C6_amended_witness :
    generateFakeValueRT (fun _ _ => []) "LOCATION" 0 =
        (String.data "[REDACTED_LOCATION]") ∧
      getFakeValueRT (fun _ _ => []) "LOCATION" (String.data "Roma") ⟨emptyMaps, 0⟩ =
        Except.error "TypeError: Cannot read properties of undefined (reading has)" :=
  ⟨((C6_amended "LOCATION" (by decide)).1 _ _).trans (by decide),
    (C6_amended "LOCATION" (by decide)).2 _ _ _⟩

/-- C6 counterexample: `getFakeValue` with the unknown type `LOCATION`
signals failure (a `TypeError`) instead of returning the placeholder. -/
theorem C6_counterexample :
    getFakeValueRT (fun _ _ => []) "LOCATION" (String.data "Roma") ⟨emptyMaps, 0⟩ =
        Except.error "TypeError: Cannot read properties of undefined (reading has)" ∧
      (getFakeValueRT (fun _ _ => []) "LOCATION" (String.data "Roma")
        ⟨emptyMaps, 0⟩).isOk = false :=
  ⟨rfl, rfl⟩

/-! ### Chunking: claims C4 and C10 -/

theorem chunksFrom_ne_nil_iff (text : List Char) (j : Nat) :
    chunksFrom text j = [] ↔ text.length ≤ j := by
  rw [chunksFrom]
  split
  · rename_i h
    exact iff_of_false (by simp) (by omega)
  · rename_i h
    exact iff_of_true rfl (by omega)

theorem chunksFrom_flatten (text : List Char) (i : Nat) :
    (chunksFrom text i).flatten = text.drop i := by
  induction i using chunksFrom.induct text with
  | case1 i hi ih =>
    rw [chunksFrom, if_pos hi, List.flatten_cons, ih, List.drop_take,
      show i + CHUNK_SIZE - i = CHUNK_SIZE by omega,
      show text.drop (i + CHUNK_SIZE) = (text.drop i).drop CHUNK_SIZE by rw [List.drop_drop]]
    exact List.take_append_drop _ _
  | case2 i hi =>
    rw [chunksFrom, if_neg hi, List.drop_eq_nil_of_le (by omega)]
    rfl

theorem chunksFrom_sizes (text : List Char) (i : Nat) :
    (∀ c ∈ (chunksFrom text i).dropLast, c.length = CHUNK_SIZE) ∧
    (∀ c ∈ chunksFrom text i, c.length ≤ CHUNK_SIZE) := by
  induction i using chunksFrom.induct text with
  | case1 i hi ih =>
    rw [chunksFrom, if_pos hi]
    have hclen : ((text.take (i + CHUNK_SIZE)).drop i).length =
        min (i + CHUNK_SIZE) text.length - i := by
      simp [List.length_drop, List.length_take]
    by_cases hnil : chunksFrom text (i + CHUNK_SIZE) = []
    · have hle := (chunksFrom_ne_nil_iff text (i + CHUNK_SIZE)).mp hnil
      constructor
      · intro c hc
        rw [hnil] at hc
        simp at hc
      · intro c hc
        rw [hnil] at hc
        simp only [List.mem_singleton] at hc
        subst hc
        omega
    · have hlt : i + CHUNK_SIZE < text.length := by
        rcases Nat.lt_or_ge (i + CHUNK_SIZE) text.length with h | h
        · exact h
        · exact absurd ((chunksFrom_ne_nil_iff text (i + CHUNK_SIZE)).mpr h) hnil
      constructor
      · intro c hc
        rw [List.dropLast_cons_of_ne_nil hnil] at hc
        rcases List.mem_cons.mp hc with rfl | hc
        · omega
        · exact ih.1 c hc
      · intro c hc
        rcases List.mem_cons.mp hc with rfl | hc
        · omega
        · exact ih.2 c hc
  | case2 i hi =>
    rw [chunksFrom, if_neg hi]
    exact ⟨by simp, by simp⟩

/-- C4: `CHUNK_SIZE` is 80 000; `anonymizeTextChunked` slices the input
into consecutive chunks of exactly `CHUNK_SIZE` characters (except a
possibly shorter final chunk) whose concatenation is the input, and its
output is the in-order concatenation of the per-chunk `anonymizeText`
outputs (the consistency state threading through the chunks in order). -/
theorem C4_chunking (gen : Gen) (s : FakerState) (text : List Char) :
    CHUNK_SIZE = 80000 ∧
    (chunksFrom text 0).flatten = text ∧
    (∀ c ∈ (chunksFrom text 0).dropLast, c.length = CHUNK_SIZE) ∧
    (∀ c ∈ chunksFrom text 0, c.length ≤ CHUNK_SIZE) ∧
    (anonymizeTextChunked gen text s).1 =
      ((anonymizeChunks gen (chunksFrom text 0) s).1).flatten :=
  ⟨rfl, by simpa using chunksFrom_flatten text 0, (chunksFrom_sizes text 0).1,
    (chunksFrom_sizes text 0).2, rfl⟩

/-- C4 witness: the chunk decomposition at a concrete input. -/
theorem C4_witness :
    (chunksFrom (String.data "abc") 0).flatten = String.data "abc" :=
  (C4_chunking (fun _ _ => []) ⟨emptyMaps, 0⟩ (String.data "abc")).2.1

/-- C10: on inputs of at most `CHUNK_SIZE` characters (the empty string
included) the chunked path returns exactly the whole-text result, output
and final consistency state alike. -/
theorem C10_small_input_equiv (gen : Gen) (s : FakerState) (text : List Char)
    (h : text.length ≤ CHUNK_SIZE) :
    anonymizeTextChunked gen text s = anonymizeText gen text s := by
  rcases eq_or_ne text [] with rfl | hne
  · have h0 : chunksFrom [] 0 = ([] : List (List Char)) := by
      rw [chunksFrom]
      simp
    unfold anonymizeTextChunked
    rw [h0]
    have hd : detectEntities [] = [] := by decide
    rw [anonymizeText, hd]
    rfl
  · have hlen : 0 < text.length := List.length_pos.mpr hne
    have h1 : chunksFrom text 0 = [text] := by
      rw [chunksFrom, if_pos hlen]
      have h2 : chunksFrom text (0 + CHUNK_SIZE) = [] := by
        rw [chunksFrom_ne_nil_iff]
        simp only [CHUNK_SIZE] at h ⊢
        omega
      rw [h2]
      simp only [Nat.zero_add, List.drop_zero]
      rw [List.take_of_length_le h]
    unfold anonymizeTextChunked
    rw [h1]
    simp only [anonymizeChunks, List.flatten_cons, List.flatten_nil, List.append_nil]

/-- C10 witness: a concrete small input. -/
theorem C10_witness :
    (String.data "hi").length ≤ CHUNK_SIZE ∧
      anonymizeTextChunked (fun _ _ => ['z']) (String.data "hi") ⟨emptyMaps, 0⟩ =
        anonymizeText (fun _ _ => ['z']) (String.data "hi") ⟨emptyMaps, 0⟩ :=
  ⟨by decide, C10_small_input_equiv _ _ _ (by decide)⟩

/-! ### Structural preservation: claim C1 -/

theorem substituteAll_append (gen : Gen) :
    ∀ (L : List DetectedEntity) (P Q : List Char) (s : FakerState),
      (∀ e ∈ L, e.start < e.stop ∧ e.stop ≤ P.length) →
      L.Pairwise (fun a b => b.stop ≤ a.start) →
      substituteAll gen L (P ++ Q) s =
        ((substituteAll gen L P s).1 ++ Q, (substituteAll gen L P s).2)
  | [], P, Q, s, _, _ => rfl
  | e :: L, P, Q, s, hb, hd => by
    have he := hb e (List.mem_cons_self e L)
    have hb' : ∀ e' ∈ L, e'.start < e'.stop ∧ e'.stop ≤ P.length :=
      fun e' he' => hb e' (List.mem_cons_of_mem _ he')
    have hhead : ∀ e' ∈ L, e'.stop ≤ e.start := (List.pairwise_cons.mp hd).1
    have hd' := (List.pairwise_cons.mp hd).2
    simp only [substituteAll]
    rw [List.take_append_of_le_length (by omega), List.drop_append_of_le_length (by omega)]
    have hbP : ∀ e' ∈ L, e'.start < e'.stop ∧ e'.stop ≤
        (P.take e.start ++ ((getFakeValue gen e.type e.value s).1 ++ P.drop e.stop)).length := by
      intro e' he'
      have h1 := hb' e' he'
      have h2 := hhead e' he'
      simp only [List.length_append, List.length_take]
      omega
    have hrec := substituteAll_append gen L
      (P.take e.start ++ ((getFakeValue gen e.type e.value s).1 ++ P.drop e.stop)) Q
      (getFakeValue gen e.type e.value s).2 hbP hd'
    simpa only [List.append_assoc] using hrec

theorem substituteAll_splice (gen : Gen) :
    ∀ (L : List DetectedEntity) (text : List Char) (s : FakerState),
      (∀ e ∈ L, e.start < e.stop ∧ e.stop ≤ text.length) →
      L.Pairwise (fun a b => b.stop ≤ a.start) →
      ∃ reps : List (List Char), reps.length = L.length ∧
        (substituteAll gen L text s).1 =
          spliceR text (L.map fun e => (e.start, e.stop)) reps
  | [], text, s, _, _ => ⟨[], rfl, rfl⟩
  | e :: L, text, s, hb, hd => by
    have he := hb e (List.mem_cons_self e L)
    have hhead : ∀ e' ∈ L, e'.stop ≤ e.start := (List.pairwise_cons.mp hd).1
    have hd' := (List.pairwise_cons.mp hd).2
    have hbP : ∀ e' ∈ L, e'.start < e'.stop ∧ e'.stop ≤ (text.take e.start).length := by
      intro e' he'
      have h1 := hb e' (List.mem_cons_of_mem _ he')
      have h2 := hhead e' he'
      simp only [List.length_take]
      omega
    obtain ⟨reps, hlen, heq⟩ := substituteAll_splice gen L (text.take e.start)
      (getFakeValue gen e.type e.value s).2 hbP hd'
    refine ⟨(getFakeValue gen e.type e.value s).1 :: reps, by simp [hlen], ?_⟩
    simp only [substituteAll, List.map_cons, spliceR]
    rw [List.append_assoc,
      substituteAll_append gen L (text.take e.start)
        ((getFakeValue gen e.type e.value s).1 ++ text.drop e.stop)
        (getFakeValue gen e.type e.value s).2 hbP hd']
    rw [heq]
    simp [List.append_assoc]

/-- C1 (amended): when the detected spans are pairwise disjoint, the output
of `anonymizeText` is exactly the input's outside-span segments, in order
and count, interleaved with one replacement per entity (`spliceR`). -/
theorem C1_amended (gen : Gen) (s : FakerState) (text : List Char)
    (hd : (detectEntities text).Pairwise (fun a b => b.stop ≤ a.start ∨ a.stop ≤ b.start)) :
    ∃ reps : List (List Char), reps.length = (detectEntities text).length ∧
      (anonymizeText gen text s).1 =
        spliceR text ((detectEntities text).map fun e => (e.start, e.stop)) reps := by
  have hb : ∀ e ∈ detectEntities text, e.start < e.stop ∧ e.stop ≤ text.length :=
    fun e he => ⟨(detect_span_invariant text e he).1, (detect_span_invariant text e he).2.1⟩
  have hsorted := detect_sorted text
  have hdisj : (detectEntities text).Pairwise (fun a b => b.stop ≤ a.start) := by
    refine List.Pairwise.imp_of_mem ?_ (hd.and hsorted)
    intro a b ha hb2 hab
    obtain ⟨hor, hle⟩ := hab
    rcases hor with h | h
    · exact h
    · have := (hb a ha).1
      omega
  exact substituteAll_splice gen (detectEntities text) text s hb hdisj

/-- C1 witness: a disjoint-span input, with the preserved interleaving. -/
theorem C1_witness :
    (detectEntities (String.data "a@b.it x")).Pairwise
        (fun a b => b.stop ≤ a.start ∨ a.stop ≤ b.start) ∧
      ∃ reps : List (List Char),
        reps.length = (detectEntities (String.data "a@b.it x")).length ∧
        (anonymizeText (fun _ _ => ['z']) (String.data "a@b.it x") ⟨emptyMaps, 0⟩).1 =
          spliceR (String.data "a@b.it x")
            ((detectEntities (String.data "a@b.it x")).map fun e => (e.start, e.stop)) reps :=
  ⟨by decide, C1_amended _ _ _ (by decide)⟩

/-- C1 counterexample: on `"0123456789012345ab"` the detected spans are
PHONE `[0,12)` and CREDIT_CARD `[0,16)`, which overlap; every detected span
ends by offset 16, so the suffix `"ab"` lies outside all detected spans.
With zero-length replacement values the right-to-left substitution
nevertheless erases it: the output is empty, so the outside-span substring
`"ab"` appears in the output zero times instead of once (it does not even
survive as the output suffix), refuting the claimed preservation of the
outside-span substrings in order and count. -/
theorem C1_counterexample :
    detectEntities (String.data "0123456789012345ab") =
        [⟨.PHONE_NUMBER, String.data "012345678901", 0, 12⟩,
          ⟨.CREDIT_CARD, String.data "0123456789012345", 0, 16⟩] ∧
      (∀ e ∈ detectEntities (String.data "0123456789012345ab"), e.stop ≤ 16) ∧
      (String.data "0123456789012345ab").drop 16 = ['a', 'b'] ∧
      (anonymizeText (fun _ _ => []) (String.data "0123456789012345ab")
          ⟨emptyMaps, 0⟩).1 = [] ∧
      ¬ ∃ r : List Char,
          (anonymizeText (fun _ _ => []) (String.data "0123456789012345ab")
            ⟨emptyMaps, 0⟩).1 = r ++ ['a', 'b'] := by
  have hout : (anonymizeText (fun _ _ => []) (String.data "0123456789012345ab")
      ⟨emptyMaps, 0⟩).1 = [] := by decide
  refine ⟨by decide, by decide, by decide, hout, ?_⟩
  rintro ⟨r, hr⟩
  rw [hout] at hr
  have hlen := congrArg List.length hr
  simp only [List.length_nil, List.length_append, List.length_cons] at hlen
  omega

/-! ### The shape of PERSON matches: claim C9 -/

theorem capWordB_take {c : Char} {rest2 : List Char} {l : Nat} (hc : isUpperAZ c = true)
    (hl1 : 1 ≤ l) (hl2 : l ≤ runLen isLowerName rest2) :
    capWordB (c :: rest2.take l) = true := by
  have hrle := runLen_le isLowerName rest2
  have hlen : (rest2.take l).length = l := by
    simp only [List.length_take]
    omega
  simp only [capWordB, hc, Bool.true_and, Bool.and_eq_true]
  constructor
  · cases h0 : rest2.take l with
    | nil => rw [h0] at hlen; simp at hlen; omega
    | cons a t => simp
  · exact List.all_eq_true.mpr (fun x hx => all_take_of_le_runLen isLowerName rest2 l hl2 x hx)

theorem personExt_shape_of {pg : Char → List Char → Option Nat} {rest : List Char} {n : Nat}
    (h : personExt pg rest = some n)
    (hpg : ∀ lc r m, pg lc r = some m → WsWordsTail (r.take m)) :
    WsWordsTail (rest.take n) ∧ rest.take n ≠ [] := by
  obtain ⟨c, rest2, l, m, lc, hw, hdrop, hc, hl1, hl2, hlc, hp, hn⟩ := personExt_eq h
  have hwle := runLen_le isJsWs rest
  have hsplit : rest.take n =
      rest.take (runLen isJsWs rest) ++ ((c :: rest2.take l) ++ (rest2.drop l).take m) := by
    rw [hn, show runLen isJsWs rest + 1 + (l + m) =
      runLen isJsWs rest + ((l + m) + 1) by omega, List.take_add, hdrop,
      List.take_succ_cons, List.take_add]
    rfl
  have hsne : rest.take (runLen isJsWs rest) ≠ [] := by
    have : (rest.take (runLen isJsWs rest)).length = runLen isJsWs rest := by
      simp only [List.length_take]
      omega
    intro hnil
    rw [hnil] at this
    simp at this
    omega
  have hsws : ∀ x ∈ rest.take (runLen isJsWs rest), isJsWs x = true :=
    all_take_of_le_runLen isJsWs rest _ (Nat.le_refl _)
  have hword := capWordB_take hc hl1 hl2
  have htail := hpg _ _ _ hp
  rw [hsplit]
  refine ⟨WsWordsTail.cons _ _ _ hsne hsws hword htail, ?_⟩
  intro hnil
  exact hsne (List.append_eq_nil.mp hnil).1

theorem personGroups_shape : ∀ {f : Nat} {last : Char} {rest : List Char} {n : Nat},
    personGroups f last rest = some n → WsWordsTail (rest.take n) := by
  intro f
  induction f with
  | zero => intro last rest n h; simp [personGroups] at h
  | succ f ih =>
    intro last rest n h
    unfold personGroups at h
    split at h
    · rename_i m hm
      injection h with h
      subst h
      exact (personExt_shape_of hm (fun lc r m2 hp => ih hp)).1
    · split at h
      · injection h with h
        subst h
        simpa using WsWordsTail.nil
      · exact absurd h (by simp)

theorem matchPerson_shape {prev : Option Char} {cs : List Char} {n : Nat}
    (h : matchPerson prev cs = some n) : IsPersonShape (cs.take n) := by
  unfold matchPerson at h
  split at h
  · exact absurd h (by simp)
  · split at h
    · rename_i c rest
      split at h
      · rename_i hc
        simp only [Option.map_eq_some'] at h
        obtain ⟨m0, hm0, rfl⟩ := h
        obtain ⟨l, m, lc, h1, h2, h3, h4, h5⟩ := tryLens_eq hm0
        have hshape := personExt_shape_of h5 (fun lc2 r m2 hp => personGroups_shape hp)
        have hsplit : (c :: rest).take (1 + m0) =
            (c :: rest.take l) ++ (rest.drop l).take m := by
          rw [h1, show 1 + (l + m) = (l + m) + 1 by omega, List.take_succ_cons,
            List.take_add]
          rfl
        rw [hsplit]
        exact ⟨c :: rest.take l, (rest.drop l).take m, capWordB_take hc h2 h3,
          hshape.1, hshape.2, rfl⟩
      · exact absurd h (by simp)
    · exact absurd h (by simp)

/-- C9 (amended): every PERSON entity's value consists of two or more
capitalized words (an ASCII capital followed by one or more letters of
`[a-zàèéìòù]`) separated by non-empty whitespace runs.  (The original
sentence's "single spaces" is refuted — the pattern separator is `\s+` —
and so is "every such maximal substring is detected": the `\b` anchors
make name-shaped substrings preceded by a word character undetectable.) -/
theorem C9_amended (text : List Char) (e : DetectedEntity)
    (h1 : e ∈ detectEntities text) (h2 : e.type = EntityType.PERSON) :
    IsPersonShape e.value := by
  rcases mem_detectEntities_iff.mp h1 with h | h | h | h | h | h
  · rw [scanPattern_type h] at h2; exact absurd h2 (by decide)
  · rw [scanPattern_type h] at h2; exact absurd h2 (by decide)
  · rw [scanPattern_type h] at h2; exact absurd h2 (by decide)
  · rw [scanPattern_type h] at h2; exact absurd h2 (by decide)
  · rw [scanPattern_type h] at h2; exact absurd h2 (by decide)
  · obtain ⟨j, n, hn, hj, rfl⟩ := mem_scanPattern h
    exact matchPerson_shape hn

/-- C9 witness: the amended shape at a concretely detected PERSON entity. -/
theorem C9_witness :
    (⟨.PERSON, String.data "Ab Cd", 0, 5⟩ : DetectedEntity) ∈
        detectEntities (String.data "Ab Cd") ∧
      IsPersonShape (String.data "Ab Cd") :=
  ⟨by decide,
    C9_amended (String.data "Ab Cd") ⟨.PERSON, String.data "Ab Cd", 0, 5⟩ (by decide) rfl⟩

/-- C9 counterexample: the PERSON value `"Ab  Cd"` (double space) is
detected but is not single-space separated, and the maximal
single-space-shaped substring `"Ab Cd"` of `"xAb Cd"` is not detected at
all (no PERSON entity is returned), refuting both halves of the original
sentence. -/
theorem C9_counterexample :
    detectEntities (String.data "Ab  Cd") =
        [⟨.PERSON, String.data "Ab  Cd", 0, 6⟩] ∧
      singleSpacedCapWords (String.data "Ab  Cd") = false ∧
      singleSpacedCapWords (String.data "Ab Cd") = true ∧
      String.data "xAb Cd" = 'x' :: String.data "Ab Cd" ∧
      (∀ e ∈ detectEntities (String.data "xAb Cd"), e.type ≠ EntityType.PERSON) :=
  ⟨by decide, by decide, by decide, rfl, by decide⟩

end Teseo
